import Mathlib

/-!
Verification of the aggregation and ranking pipeline of a cargo cache
inspection tool.  The development shallowly embeds the three source files
`src/cache/dircache.rs`, `src/top_items/git_repos_bare.rs` and
`src/top_items/registry_sources.rs`.

Modelling conventions:
* Rust `String` values are Lean `String`s; name processing that Rust performs
  by `split`/`pop`/`join` is modelled on the underlying `List Char`
  (`String.data`), which agrees with Rust's `char`-based splitting.
* Rust `u64`/`u32` arithmetic is modelled on `Nat` with an explicit
  `% 2 ^ 64` / `% 2 ^ 32` wherever the Rust code performs arithmetic that
  could overflow.
* The filesystem is not part of the embedding.  Functions that consult it
  (`dir_exists`, the size walker, the lazy `DirCache`) live in files that are
  not part of `src/` (`top_items/common.rs`, `cache/caches.rs`); following the
  spec they are modelled by explicit parameters (a `Bool` for existence, a
  `String → Nat` subtree-size oracle, explicit folder lists) and by an event
  trace recording which cache collaborator functions a report invocation used.
* `RepoInfo::new` inspects `path.exists()`; since the embedded state has an
  empty filesystem, the model takes the `else` branch of that test (the branch
  exercised by the repository's own unit tests): the name is the final path
  component and the `size` field is `0`.  The `size` field is never read by
  any later stage.
-/

/-- Splits a character list at every occurrence of `sep`, mirroring Rust's
`str::split(char)`: the empty string yields one empty segment, and a
separator at either end yields an adjacent empty segment. -/
def splitOnChar (sep : Char) : List Char → List (List Char)
  | [] => [[]]
  | c :: cs =>
    if c = sep then [] :: splitOnChar sep cs
    else
      match splitOnChar sep cs with
      | [] => [[c]]
      | g :: gs => (c :: g) :: gs

/-- Joins segments with a single `sep` character between adjacent segments,
mirroring Rust's `[&str]::join(sep)`. -/
def joinSep (sep : Char) : List (List Char) → List Char
  | [] => []
  | g :: gs =>
    match gs with
    | [] => g
    | _ :: _ => g ++ sep :: joinSep sep gs

/-- The final `/`-separated component of a path string, mirroring
`Path::file_name().unwrap().to_str().unwrap()` on the well-formed paths the
program feeds it. -/
def fileName (s : String) : String :=
  String.mk ((splitOnChar '/' s.data).getLastD [])

/-- Identity Decoder from `cache/dircache.rs` (`get_cache_name`): keep only the
final path component, split it on `-`, drop the last segment (the hash), and
rejoin the remaining segments with `-`. -/
def get_cache_name (path : String) : String :=
  String.mk (joinSep '-' ((splitOnChar '-' ((splitOnChar '/' path.data).getLastD [])).dropLast))

/-- Decimal digit expansion of a natural number as characters, most
significant digit first, mirroring Rust's `Display` for unsigned integers.
The fuel argument makes the recursion structural; `natToDec` supplies
more than enough fuel. -/
def natToDecAux (fuel : Nat) (n : Nat) : List Char :=
  match fuel with
  | 0 => []
  | fuel + 1 =>
    if n < 10 then [Nat.digitChar n]
    else natToDecAux fuel (n / 10) ++ [Nat.digitChar (n % 10)]

def natToDec (n : Nat) : List Char := natToDecAux (n + 1) n

def natToDecStr (n : Nat) : String := String.mk (natToDec n)

/-- Left-pads with `'0'` to the given width, mirroring Rust's
`format` specifier `{:0>w}` (no truncation if the content is wider). -/
def zeroPad (w : Nat) (s : String) : String :=
  String.mk (List.replicate (w - s.length) '0' ++ s.data)

/-- Right-pads with spaces to the given width, mirroring `{: <w}`. -/
def padRight (s : String) (w : Nat) : String :=
  String.mk (s.data ++ List.replicate (w - s.length) ' ')

/-- Left-pads with spaces to the given width, mirroring `{: >w}`. -/
def padLeftSp (s : String) (w : Nat) : String :=
  String.mk (List.replicate (w - s.length) ' ' ++ s.data)

/-- Modelled from the spec: human-readable byte size in SI decimal units, the
contract of the external `humansize` crate's `file_size(DECIMAL)` used by the
formatters.  Values below 1000 render as `"<n> B"`, which is the only range
the repository's unit tests (and the claims here) exercise; larger values are
scaled by powers of 1000 with at most two decimal places, using integer
rounding in place of the crate's floating-point formatting. -/
def fileSizeDecimal (n : Nat) : String :=
  if n < 1000 then natToDecStr n ++ " B"
  else
    let unit : Nat × String :=
      if n < 1000 ^ 2 then (1000, "kB")
      else if n < 1000 ^ 3 then (1000 ^ 2, "MB")
      else if n < 1000 ^ 4 then (1000 ^ 3, "GB")
      else if n < 1000 ^ 5 then (1000 ^ 4, "TB")
      else if n < 1000 ^ 6 then (1000 ^ 5, "PB")
      else (1000 ^ 6, "EB")
    let d := unit.1
    if n % d = 0 then natToDecStr (n / d) ++ " " ++ unit.2
    else
      let q := (n * 100 + d / 2) / d
      natToDecStr (q / 100) ++ "." ++ zeroPad 2 (natToDecStr (q % 100)) ++ " " ++ unit.2

/-- Stable insertion used by `sortStable`: the new element is placed before
the first existing element it compares `le` to, hence before equal elements
that occur later in the original list. -/
def insertSorted (le : α → α → Bool) (x : α) : List α → List α
  | [] => [x]
  | y :: ys => if le x y then x :: y :: ys else y :: insertSorted le x ys

/-- Stable ascending insertion sort, the model of Rust's stable `Vec::sort`.
Stability and sortedness are proved below (`sortStable_filter_key`,
`sortStable_pairwise`, `sortStable_perm`), which pins this down as *the*
stable ascending sort. -/
def sortStable (le : α → α → Bool) : List α → List α
  | [] => []
  | x :: xs => insertSorted le x (sortStable le xs)

/-- Lexicographic order on character lists by code point; this is the order
Rust's `Ord for String` realises (UTF-8 byte order coincides with code-point
order). -/
def leChars : List Char → List Char → Bool
  | [], _ => true
  | _ :: _, [] => false
  | a :: as, b :: bs => if a < b then true else if b < a then false else leChars as bs

def strLe (a b : String) : Bool := leChars a.data b.data

/-- Event trace entries recording which filesystem/cache collaborator
functions a report invocation used (spec §6: the Lazy Cache contract and the
directory listing the registry variant performs itself). -/
inductive CacheCall
  | total_size
  | bare_repo_folders
  | read_dir
deriving DecidableEq, Repr

namespace RegistrySources

/-- Modelled from the spec: `FileDesc` of `top_items/common.rs` (not under
`src/`), the descriptor pairing a decoded logical name with a recursively
summed size; the registry-sources aggregator and its unit tests pin exactly
these two fields. -/
structure FileDesc where
  name : String
  size : Nat
deriving DecidableEq, Repr

/-- One line of the registry-sources summary, mirroring the `format!` call in
`states_from_file_desc_list`: a 20-wide zero-padded sort key (the running
total), a space, the name left-justified to the maximal name length, the
literal ` src ckt: `, the counter left-justified to width 3, a space, the
`src avg: `-prefixed average right-justified to width 9 and the whole avg
field left-justified to width 20, two spaces, `total: `, the human-readable
total, and a newline.  The average divides by `counter` exactly as the Rust
code does (Rust `u64` division panics on a zero divisor; Lean returns 0 —
claim C8 shows the divisor is never zero on aggregator output). -/
def regLine (maxLen : Nat) (total : Nat) (name : String) (counter : Nat) : String :=
  zeroPad 20 (natToDecStr total) ++ " " ++ padRight name maxLen ++ " src ckt: "
    ++ padRight (natToDecStr counter) 3 ++ " "
    ++ padRight ("src avg: " ++ padLeftSp (fileSizeDecimal (total / counter)) 9) 20
    ++ "  total: " ++ fileSizeDecimal total ++ "\n"

/-- The sequential loop body of `states_from_file_desc_list`, written as a
recursion over the descriptor list with the mutable Rust state
(`previous_name`, `counter`, `total_size`) as arguments; returns the lines in
push order.  A line is pushed when the current name equals the previous one,
or when the current name is nonempty and the previous one empty; otherwise
only the counter advances.  `u64`/`u32` arithmetic wraps. -/
def regGo (maxLen : Nat) (previous_name : String) (counter total_size : Nat) :
    List FileDesc → List String
  | [] => []
  | pkg :: rest =>
    let current_name := pkg.name
    let new_total := (total_size + pkg.size) % 2 ^ 64
    if current_name = previous_name ∨ (current_name ≠ "" ∧ previous_name = "") then
      regLine maxLen new_total current_name counter
        :: regGo maxLen current_name 1 (pkg.size % 2 ^ 64) rest
    else
      regGo maxLen current_name ((counter + 1) % 2 ^ 32) new_total rest

/-- Registry-sources aggregator `states_from_file_desc_list` from
`top_items/registry_sources.rs`: computes the maximal name length, runs the
sequential loop starting from an empty previous name, counter 1 and total 0,
then sorts the pushed lines (stable ascending string sort, the model of
`Vec::sort`) and reverses. -/
def states_from_file_desc_list (file_descs : List FileDesc) : List String :=
  let max_cratename_len := (file_descs.map (fun p => p.name.length)).foldr max 0
  (sortStable strLe (regGo max_cratename_len "" 1 0 file_descs)).reverse

/-- Report function `registry_source_stats`: returns the report string
together with the trace of filesystem/cache listing calls it performed.
`dir_exists` is the modelled result of `common::dir_exists(path)`; the
descriptor list stands for what `file_desc_list_from_path` would build from
the directory listing (spec §4.3), and reading it is recorded as a
`read_dir` event.  Each emitted line has its first 21 characters (the sort
key and separating space, all ASCII, see C10) removed, mirroring
`&data[21..]`. -/
def registry_source_stats (dir_exists : Bool) (path : String) (limit : Nat)
    (file_descs : List FileDesc) : String × List CacheCall :=
  if dir_exists = false then ("", [])
  else
    let summary := states_from_file_desc_list file_descs
    ("\nSummary of: " ++ path ++ "\n"
        ++ String.join ((summary.take limit).map (fun data => String.mk (data.data.drop 21))),
      [CacheCall.read_dir])

end RegistrySources

/-- Modelled from the spec: `TOP_CRATES_SPACING` of `top_items/common.rs`
(not under `src/`), the fixed spacing constant added to the widest rendered
name (spec §4.5); the value 3 is pinned by the unit tests in
`git_repos_bare.rs` (a 6-character name is padded to width 9). -/
def TOP_CRATES_SPACING : Nat := 3

namespace GitReposBare

/-- Descriptor of one bare-repo cache entry (`FileDesc` of
`git_repos_bare.rs`): path, decoded logical name, recursively summed size. -/
structure FileDesc where
  path : String
  name : String
  size : Nat
deriving DecidableEq, Repr

/-- Summary record of the bare-repo report (`RepoInfo`).  In the Rust code
ordering and equality are defined solely by `total_size`; the sort below uses
exactly that key. -/
structure RepoInfo where
  name : String
  size : Nat
  counter : Nat
  total_size : Nat
deriving DecidableEq, Repr

/-- `RepoInfo::new`: with the embedding's empty filesystem, `path.exists()`
is false and the constructor takes its `else` branch (the one the
repository's unit tests exercise): the name is the final path component and
the `size` field is 0.  (When the path does exist the Rust code instead
strips the trailing hash from the same final component, which again equals
the descriptor's decoded name; the `size` field is never read anywhere.) -/
def RepoInfo.new (path : String) (counter : Nat) (total_size : Nat) : RepoInfo :=
  { name := fileName path, size := 0, counter := counter, total_size := total_size }

/-- The `(previous, current)` sliding-pair loop of
`stats_from_file_desc_list`, written as a recursion over the remaining
descriptors: `prev` is the previously processed descriptor, `out` the emitted
records, `repoinfo` the open accumulator, `counter`/`total` the running
`u32`/`u64` counters (wrapping arithmetic).  The four match arms correspond
exactly to the four `Pair` states of the Rust `while` loop. -/
def statsLoop : Option FileDesc → List FileDesc → List RepoInfo → RepoInfo → Nat → Nat →
    List RepoInfo
  | none, [], out, _, _, _ => out
  | some _, [], out, repoinfo, _, _ => out ++ [repoinfo]
  | none, current :: rest, out, _, counter, total =>
    statsLoop (some current) rest out
      (RepoInfo.new current.path ((counter + 1) % 2 ^ 32) ((total + current.size) % 2 ^ 64))
      ((counter + 1) % 2 ^ 32) ((total + current.size) % 2 ^ 64)
  | some previous, current :: rest, out, repoinfo, counter, total =>
    if current.name = previous.name then
      statsLoop (some current) rest out
        (RepoInfo.new current.path ((counter + 1) % 2 ^ 32) ((total + current.size) % 2 ^ 64))
        ((counter + 1) % 2 ^ 32) ((total + current.size) % 2 ^ 64)
    else
      statsLoop (some current) rest (out ++ [repoinfo])
        (RepoInfo.new current.path ((0 + 1) % 2 ^ 32) ((0 + current.size) % 2 ^ 64))
        ((0 + 1) % 2 ^ 32) ((0 + current.size) % 2 ^ 64)

/-- Bare-repo adjacency-fold aggregator `stats_from_file_desc_list` from
`top_items/git_repos_bare.rs`: runs the sliding-pair loop starting from the
dummy `ERROR 1/err1` accumulator and zeroed counters. -/
def stats_from_file_desc_list (file_descs : List FileDesc) : List RepoInfo :=
  statsLoop none file_descs [] (RepoInfo.new "ERROR 1/err1" 0 0) 0 0

/-- Comparison used by the Rust `Ord for RepoInfo`: by `total_size` alone. -/
def repoLe (a b : RepoInfo) : Bool := decide (a.total_size ≤ b.total_size)

/-- One rendered line of the bare-repo report, mirroring the `format!` call
in `chkout_list_to_string`: name left-justified to `width` (the widest
rendered name plus `TOP_CRATES_SPACING`), literal ` src ckt: `, the counter
left-justified to width 3, a space, the `src avg: `-prefixed truncating
average right-justified to width 9 with the whole avg field left-justified
to width 20, literal ` total: `, the human-readable total, newline. -/
def repoLine (width : Nat) (r : RepoInfo) : String :=
  padRight r.name width ++ " src ckt: " ++ padRight (natToDecStr r.counter) 3 ++ " "
    ++ padRight ("src avg: " ++ padLeftSp (fileSizeDecimal (r.total_size / r.counter)) 9) 20
    ++ " total: " ++ fileSizeDecimal r.total_size ++ "\n"

/-- Ranker & formatter `chkout_list_to_string`: stable ascending sort by
`total_size` (Rust's stable `Vec::sort` under the `total_size`-only `Ord`),
reverse to descending, compute the widest name among the first `limit`
records, render those records. -/
def chkout_list_to_string (limit : Nat) (collections_vec : List RepoInfo) : String :=
  let sorted := (sortStable repoLe collections_vec).reverse
  let max_cratename_len := ((sorted.take limit).map (fun p => p.name.length)).foldr max 0
  String.join ((sorted.take limit).map
    (fun r => repoLine (max_cratename_len + TOP_CRATES_SPACING) r))

/-- `FileDesc::new_from_git_bare`: the name is the final path component with
its trailing `-`-separated hash removed — the same computation as
`get_cache_name` — and the size is the walked subtree size, supplied by the
`sizeOf` oracle that models the Size Walker (spec §4.2, code not under
`src/`). -/
def FileDesc.new_from_git_bare (sizeOf : String → Nat) (path : String) : FileDesc :=
  { path := path, name := get_cache_name path, size := sizeOf path }

/-- Continuation form of `statsLoop` from the state "previous descriptor `p`
processed, open accumulator `RepoInfo.new p.path counter total`": returns the
records still to be emitted.  Proved equal to `statsLoop` below
(`statsLoop_eq_statsCont`); used to reason about the sliding-pair loop. -/
def statsCont (p : FileDesc) (counter total : Nat) : List FileDesc → List RepoInfo
  | [] => [RepoInfo.new p.path counter total]
  | c :: cs =>
    if c.name = p.name then
      statsCont c ((counter + 1) % 2 ^ 32) ((total + c.size) % 2 ^ 64) cs
    else
      RepoInfo.new p.path counter total
        :: statsCont c ((0 + 1) % 2 ^ 32) ((0 + c.size) % 2 ^ 64) cs

/-- Reference aggregation over adjacent runs with exact `Nat` arithmetic: the
open run has the given name, member count and size sum; a descriptor of the
same name extends the run, a different name closes it.  The wrap-free
counterpart of `statsCont`, used as the specification side in the proofs. -/
def aggRunsGo (name : String) (count sum : Nat) : List FileDesc → List (String × Nat × Nat)
  | [] => [(name, count, sum)]
  | c :: cs =>
    if c.name = name then aggRunsGo name (count + 1) (sum + c.size) cs
    else (name, count, sum) :: aggRunsGo c.name 1 c.size cs

/-- Report function `git_repos_bare_stats`: returns the report string and the
trace of Lazy Cache calls.  `dir_exists` models `common::dir_exists(path)`;
`cache_total` models the memoized `cache.git_repos_bare.total_size()` and
`folders` the listing `bare_repo_folders()` of the `DirCache` collaborator
(spec §6, code not under `src/`).  When the root is missing the function
returns immediately with an empty string and an empty trace. -/
def git_repos_bare_stats (dir_exists : Bool) (sizeOf : String → Nat) (path : String)
    (limit : Nat) (cache_total : Nat) (folders : List String) : String × List CacheCall :=
  if dir_exists = false then ("", [])
  else
    let file_descs := folders.map (FileDesc.new_from_git_bare sizeOf)
    ("\nSummary of: " ++ path ++ " (" ++ fileSizeDecimal cache_total ++ " total)\n"
        ++ chkout_list_to_string limit (stats_from_file_desc_list file_descs),
      [CacheCall.total_size, CacheCall.bare_repo_folders])

end GitReposBare

theorem splitOnChar_ne_nil (sep : Char) (l : List Char) : splitOnChar sep l ≠ [] := by
  cases l with
  | nil => simp [splitOnChar]
  | cons c cs =>
    simp only [splitOnChar]
    split
    · simp
    · cases h : splitOnChar sep cs <;> simp

theorem splitOnChar_of_not_mem {sep : Char} {l : List Char} (h : sep ∉ l) :
    splitOnChar sep l = [l] := by
  induction l with
  | nil => rfl
  | cons c cs ih =>
    have hc : ¬ c = sep := by
      intro hc; exact h (by simp [hc])
    have hcs : sep ∉ cs := fun hm => h (List.mem_cons_of_mem _ hm)
    simp [splitOnChar, hc, ih hcs]

theorem splitOnChar_append_cons (sep : Char) (xs ys : List Char) :
    splitOnChar sep (xs ++ sep :: ys) = splitOnChar sep xs ++ splitOnChar sep ys := by
  induction xs with
  | nil => simp [splitOnChar]
  | cons c cs ih =>
    by_cases hc : c = sep
    · simp [splitOnChar, hc, ih]
    · obtain ⟨g, gs, hgs⟩ : ∃ g gs, splitOnChar sep cs = g :: gs := by
        cases h : splitOnChar sep cs with
        | nil => exact absurd h (splitOnChar_ne_nil sep cs)
        | cons g gs => exact ⟨g, gs, rfl⟩
      simp [splitOnChar, hc, ih, hgs]

theorem joinSep_cons_cons (sep : Char) (a b : List Char) (bs : List (List Char)) :
    joinSep sep (a :: b :: bs) = a ++ sep :: joinSep sep (b :: bs) := rfl

theorem joinSep_splitOnChar (sep : Char) (l : List Char) :
    joinSep sep (splitOnChar sep l) = l := by
  induction l with
  | nil => rfl
  | cons c cs ih =>
    obtain ⟨g, gs, hgs⟩ : ∃ g gs, splitOnChar sep cs = g :: gs := by
      cases h : splitOnChar sep cs with
      | nil => exact absurd h (splitOnChar_ne_nil sep cs)
      | cons g gs => exact ⟨g, gs, rfl⟩
    rw [hgs] at ih
    by_cases hc : c = sep
    · have h1 : splitOnChar sep (c :: cs) = [] :: g :: gs := by
        simp [splitOnChar, hc, hgs]
      rw [h1, joinSep_cons_cons, ih, List.nil_append, hc]
    · have h1 : splitOnChar sep (c :: cs) = (c :: g) :: gs := by
        simp [splitOnChar, hc, hgs]
      rw [h1]
      cases gs with
      | nil =>
        simp only [joinSep] at ih ⊢
        rw [ih]
      | cons g2 gs2 =>
        rw [joinSep_cons_cons] at ih ⊢
        exact congrArg (c :: ·) ih

theorem string_mk_data (s : String) : String.mk s.data = s := rfl

theorem string_data_append (a b : String) : (a ++ b).data = a.data ++ b.data := rfl

/-- C4: the Identity Decoder, applied to any basename string (one containing
no path separator), returns the string's `-`-separated segments minus the last
segment rejoined with `-`; in particular an input with no `-` character
decodes to the empty string.  The decoder is a total pure function of the
string (it is a Lean function of the string alone). -/
theorem get_cache_name_basename (s : String) (h : '/' ∉ s.data) :
    get_cache_name s = String.mk (joinSep '-' ((splitOnChar '-' s.data).dropLast))
      ∧ ('-' ∉ s.data → get_cache_name s = "") := by
  have hsplit : splitOnChar '/' s.data = [s.data] := splitOnChar_of_not_mem h
  constructor
  · simp [get_cache_name, hsplit]
  · intro hd
    have : splitOnChar '-' s.data = [s.data] := splitOnChar_of_not_mem hd
    simp [get_cache_name, hsplit, this, joinSep]

theorem get_cache_name_basename_witness :
    ('/' ∉ "gitgud".data) ∧ ('-' ∉ "gitgud".data) ∧ get_cache_name "gitgud" = "" :=
  ⟨by decide, by decide, (get_cache_name_basename "gitgud" (by decide)).2 (by decide)⟩

/-- C9: decoding `name ++ "-" ++ disamb` returns exactly `name` whenever the
disambiguator contains no `-` (round trip); name and disambiguator range over
slash-free strings, i.e. basename segments, since the decoder first reduces
its argument to the final path component.  The second conjunct records that
decoding is deterministic: equal inputs give equal outputs (the decoder is a
pure function, so it is side-effect-free by construction). -/
theorem get_cache_name_roundtrip (name disamb : String)
    (hn : '/' ∉ name.data) (hd : '/' ∉ disamb.data) (hdash : '-' ∉ disamb.data) :
    get_cache_name (name ++ "-" ++ disamb) = name
      ∧ (∀ s t : String, s = t → get_cache_name s = get_cache_name t) := by
  refine ⟨?_, fun s t hst => by rw [hst]⟩
  have hdata : (name ++ "-" ++ disamb).data = name.data ++ '-' :: disamb.data := by
    simp [string_data_append]
  have hslash : '/' ∉ (name ++ "-" ++ disamb).data := by
    rw [hdata]
    intro hm
    rcases List.mem_append.mp hm with h1 | h2
    · exact hn h1
    · rcases List.mem_cons.mp h2 with h3 | h4
      · exact absurd h3 (by decide)
      · exact hd h4
  have h1 : splitOnChar '/' (name ++ "-" ++ disamb).data = [(name ++ "-" ++ disamb).data] :=
    splitOnChar_of_not_mem hslash
  have h2 : splitOnChar '-' (name.data ++ '-' :: disamb.data)
      = splitOnChar '-' name.data ++ [disamb.data] := by
    rw [splitOnChar_append_cons, splitOnChar_of_not_mem hdash]
  have h1' : splitOnChar '/' (name.data ++ '-' :: disamb.data)
      = [name.data ++ '-' :: disamb.data] := by
    rw [← hdata]; exact h1
  calc get_cache_name (name ++ "-" ++ disamb)
      = String.mk (joinSep '-' ((splitOnChar '-' (name.data ++ '-' :: disamb.data)).dropLast)) := by
        simp [get_cache_name, hdata, h1']
    _ = String.mk (joinSep '-' (splitOnChar '-' name.data)) := by
        rw [h2, List.dropLast_concat]
    _ = String.mk name.data := by rw [joinSep_splitOnChar]
    _ = name := string_mk_data name

theorem get_cache_name_roundtrip_witness :
    ('/' ∉ "github.com".data) ∧ ('/' ∉ "1ecc6299db9ec823".data)
      ∧ ('-' ∉ "1ecc6299db9ec823".data)
      ∧ get_cache_name ("github.com" ++ "-" ++ "1ecc6299db9ec823") = "github.com" :=
  ⟨by decide, by decide, by decide,
    (get_cache_name_roundtrip "github.com" "1ecc6299db9ec823"
      (by decide) (by decide) (by decide)).1⟩

theorem natToDecAux_length_le (k : Nat) (hk : 1 ≤ k) :
    ∀ fuel n, n < 10 ^ k → (natToDecAux fuel n).length ≤ k := by
  intro fuel
  induction fuel generalizing k with
  | zero => intro n _; simp [natToDecAux]
  | succ fuel ih =>
    intro n hn
    by_cases h10 : n < 10
    · simpa [natToDecAux, h10] using hk
    · have hk2 : 2 ≤ k := by
        by_contra hcon
        have hk1 : k = 1 := by omega
        rw [hk1, pow_one] at hn
        omega
      have hdiv : n / 10 < 10 ^ (k - 1) := by
        have : n < 10 ^ (k - 1) * 10 := by
          have : 10 ^ (k - 1) * 10 = 10 ^ k := by
            rw [← pow_succ]
            congr 1
            omega
          omega
        omega
      have := ih (k - 1) (by omega) (n / 10) hdiv
      simp only [natToDecAux, if_neg h10, List.length_append, List.length_cons,
        List.length_nil]
      omega

theorem natToDec_length_le (k : Nat) (hk : 1 ≤ k) (n : Nat) (hn : n < 10 ^ k) :
    (natToDec n).length ≤ k :=
  natToDecAux_length_le k hk (n + 1) n hn

theorem natToDecAux_mem_digit (fuel n : Nat) :
    ∀ c ∈ natToDecAux fuel n, ∃ m, m < 10 ∧ c = Nat.digitChar m := by
  induction fuel generalizing n with
  | zero => simp [natToDecAux]
  | succ fuel ih =>
    intro c hc
    by_cases h10 : n < 10
    · simp only [natToDecAux, if_pos h10, List.mem_singleton] at hc
      exact ⟨n, h10, hc⟩
    · simp only [natToDecAux, if_neg h10, List.mem_append, List.mem_singleton] at hc
      rcases hc with hc | hc
      · exact ih (n / 10) c hc
      · exact ⟨n % 10, Nat.mod_lt _ (by omega), hc⟩

theorem insertSorted_perm (le : α → α → Bool) (x : α) (l : List α) :
    (insertSorted le x l).Perm (x :: l) := by
  induction l with
  | nil => simp [insertSorted]
  | cons y ys ih =>
    simp only [insertSorted]
    split
    · exact List.Perm.refl _
    · exact (ih.cons y).trans (List.Perm.swap x y ys)

theorem sortStable_perm (le : α → α → Bool) (l : List α) :
    (sortStable le l).Perm l := by
  induction l with
  | nil => simp [sortStable]
  | cons x xs ih =>
    exact (insertSorted_perm le x (sortStable le xs)).trans (ih.cons x)

theorem mem_insertSorted (le : α → α → Bool) (x a : α) (l : List α) :
    a ∈ insertSorted le x l ↔ a = x ∨ a ∈ l := by
  rw [(insertSorted_perm le x l).mem_iff]
  simp

theorem pairwise_insertSorted (le : α → α → Bool)
    (htrans : ∀ a b c, le a b = true → le b c = true → le a c = true)
    (htot : ∀ a b, le a b = false → le b a = true)
    (x : α) (l : List α) (h : l.Pairwise (fun a b => le a b = true)) :
    (insertSorted le x l).Pairwise (fun a b => le a b = true) := by
  induction l with
  | nil => simp [insertSorted]
  | cons y ys ih =>
    rcases List.pairwise_cons.mp h with ⟨hy, hys⟩
    simp only [insertSorted]
    split
    · rename_i hxy
      refine List.pairwise_cons.mpr ⟨?_, h⟩
      intro b hb
      rcases List.mem_cons.mp hb with rfl | hb
      · exact hxy
      · exact htrans x y b hxy (hy b hb)
    · rename_i hxy
      refine List.pairwise_cons.mpr ⟨?_, ih hys⟩
      intro b hb
      rcases (mem_insertSorted le x b ys).mp hb with heq | hb
      · rw [heq]; exact htot x y (Bool.eq_false_iff.mpr hxy)
      · exact hy b hb

theorem sortStable_pairwise (le : α → α → Bool)
    (htrans : ∀ a b c, le a b = true → le b c = true → le a c = true)
    (htot : ∀ a b, le a b = false → le b a = true) (l : List α) :
    (sortStable le l).Pairwise (fun a b => le a b = true) := by
  induction l with
  | nil => simp [sortStable]
  | cons x xs ih => exact pairwise_insertSorted le htrans htot x _ ih

theorem filter_insertSorted_key (k : α → Nat) (c : Nat) (x : α) (l : List α) :
    (insertSorted (fun a b => decide (k a ≤ k b)) x l).filter (fun a => decide (k a = c))
      = if k x = c then x :: l.filter (fun a => decide (k a = c))
        else l.filter (fun a => decide (k a = c)) := by
  induction l with
  | nil =>
    by_cases hx : k x = c <;> simp [insertSorted, List.filter, hx]
  | cons y ys ih =>
    simp only [insertSorted]
    by_cases hle : k x ≤ k y
    · rw [if_pos (by simpa using hle)]
      by_cases hx : k x = c
      · rw [if_pos hx]
        simp [List.filter_cons, hx]
      · rw [if_neg hx]
        simp [List.filter_cons, hx]
    · rw [if_neg (by simpa using hle)]
      have hlt : k y < k x := by omega
      by_cases hy : k y = c
      · have hx : ¬ k x = c := by omega
        rw [if_neg hx]
        simp [List.filter_cons, hy, hx, ih]
      · by_cases hx : k x = c
        · rw [if_pos hx]
          simp [List.filter_cons, hy, hx, ih]
        · rw [if_neg hx]
          simp [List.filter_cons, hy, hx, ih]

theorem sortStable_filter_key (k : α → Nat) (c : Nat) (l : List α) :
    (sortStable (fun a b => decide (k a ≤ k b)) l).filter (fun a => decide (k a = c))
      = l.filter (fun a => decide (k a = c)) := by
  induction l with
  | nil => simp [sortStable]
  | cons x xs ih =>
    simp only [sortStable]
    rw [filter_insertSorted_key]
    by_cases hx : k x = c <;> simp [List.filter, hx, ih]

theorem take_append_cons (l1 : List α) (x : α) (l2 : List α) :
    (l1 ++ x :: l2).take (l1.length + 1) = l1 ++ [x] := by
  induction l1 with
  | nil => simp
  | cons a as ih => simp [ih]

theorem drop_append_cons (l1 : List α) (x : α) (l2 : List α) :
    (l1 ++ x :: l2).drop (l1.length + 1) = l2 := by
  induction l1 with
  | nil => simp
  | cons a as ih => simp [ih]

theorem natToDec_length_le_20 (t : Nat) (ht : t < 2 ^ 64) : (natToDec t).length ≤ 20 := by
  refine natToDec_length_le 20 (by norm_num) t ?_
  calc t < 2 ^ 64 := ht
    _ ≤ 10 ^ 20 := by norm_num

theorem zeroPad_u64_length (t : Nat) (ht : t < 2 ^ 64) :
    (zeroPad 20 (natToDecStr t)).data.length = 20 := by
  have h := natToDec_length_le_20 t ht
  simp only [zeroPad, natToDecStr, List.length_append, List.length_replicate]
  simp only [String.length]
  omega

theorem digitChar_ascii : ∀ m, m < 10 → (Nat.digitChar m).toNat < 128 := by decide

theorem zeroPad_u64_ascii (t : Nat) :
    ∀ c ∈ (zeroPad 20 (natToDecStr t)).data, c.toNat < 128 := by
  intro c hc
  simp only [zeroPad, natToDecStr, List.mem_append, List.mem_replicate] at hc
  rcases hc with ⟨-, rfl⟩ | hc
  · decide
  · obtain ⟨m, hm, rfl⟩ := natToDecAux_mem_digit (t + 1) t c hc
    exact digitChar_ascii m hm

namespace RegistrySources

theorem regLine_split (w t c : Nat) (name : String) :
    (regLine w t name c).data
      = (zeroPad 20 (natToDecStr t)).data
          ++ ' ' :: ((padRight name w ++ " src ckt: " ++ padRight (natToDecStr c) 3 ++ " "
              ++ padRight ("src avg: " ++ padLeftSp (fileSizeDecimal (t / c)) 9) 20
              ++ "  total: " ++ fileSizeDecimal t ++ "\n").data) := by
  simp [regLine, string_data_append, List.append_assoc]

theorem regGo_mem_line (w : Nat) :
    ∀ (descs : List FileDesc) (prev : String) (counter total : Nat) (line : String),
      line ∈ regGo w prev counter total descs →
      ∃ t n c, t < 2 ^ 64 ∧ line = regLine w t n c := by
  intro descs
  induction descs with
  | nil => intro prev counter total line h; simp [regGo] at h
  | cons pkg rest ih =>
    intro prev counter total line h
    simp only [regGo] at h
    split at h
    · rcases List.mem_cons.mp h with rfl | h
      · exact ⟨(total + pkg.size) % 2 ^ 64, pkg.name, counter,
          Nat.mod_lt _ (by norm_num), rfl⟩
      · exact ih pkg.name 1 (pkg.size % 2 ^ 64) line h
    · exact ih pkg.name ((counter + 1) % 2 ^ 32) ((total + pkg.size) % 2 ^ 64) line h

/-- C10: every line pushed by the registry-sources aggregator starts with a
20-character zero-padded decimal rendering of the (`u64`, hence below
`2 ^ 64`) running total followed by one space; all 21 leading characters are
ASCII, so the byte index 21 used by `registry_source_stats`'s `&data[21..]`
is in bounds, on a character boundary, and dropping 21 characters removes
exactly the sort-key prefix. -/
theorem states_lines_sort_key_prefix (file_descs : List FileDesc) (line : String)
    (hline : line ∈ states_from_file_desc_list file_descs) :
    ∃ t rest, t < 2 ^ 64
      ∧ line.data = (zeroPad 20 (natToDecStr t)).data ++ ' ' :: rest
      ∧ (zeroPad 20 (natToDecStr t)).data.length = 20
      ∧ (∀ c ∈ line.data.take 21, c.toNat < 128)
      ∧ 21 ≤ line.data.length
      ∧ line.data.drop 21 = rest := by
  have hmem : line ∈ regGo ((file_descs.map (fun p => p.name.length)).foldr max 0) "" 1 0
      file_descs := by
    have h1 := List.mem_reverse.mp hline
    exact (sortStable_perm strLe _).mem_iff.mp h1
  obtain ⟨t, n, c, ht, rfl⟩ := regGo_mem_line _ file_descs "" 1 0 line hmem
  have hlen20 : (zeroPad 20 (natToDecStr t)).data.length = 20 := zeroPad_u64_length t ht
  refine ⟨t, _, ht, regLine_split _ t c n, hlen20, ?_, ?_, ?_⟩
  · intro ch hch
    rw [regLine_split _ t c n] at hch
    have h21 : (21 : Nat) = (zeroPad 20 (natToDecStr t)).data.length + 1 := by omega
    rw [h21, take_append_cons] at hch
    rcases List.mem_append.mp hch with hch | hch
    · exact zeroPad_u64_ascii t ch hch
    · rcases List.mem_singleton.mp hch with rfl
      decide
  · rw [regLine_split _ t c n]
    simp only [List.length_append, List.length_cons]
    omega
  · rw [regLine_split _ t c n]
    have h21 : (21 : Nat) = (zeroPad 20 (natToDecStr t)).data.length + 1 := by omega
    rw [h21, drop_append_cons]

theorem states_lines_sort_key_prefix_witness :
    ("00000000000000000001 crate src ckt: 1   src avg:       1 B    total: 1 B\n"
        ∈ states_from_file_desc_list [⟨"crate", 1⟩])
      ∧ 21 ≤ ("00000000000000000001 crate src ckt: 1   src avg:       1 B    total: 1 B\n"
          : String).data.length := by
  refine ⟨by decide, ?_⟩
  obtain ⟨t, rest, -, -, -, -, hlen, -⟩ :=
    states_lines_sort_key_prefix [⟨"crate", 1⟩]
      "00000000000000000001 crate src ckt: 1   src avg:       1 B    total: 1 B\n"
      (by decide)
  exact hlen

/-- C2: at the pre-sorted input `[("crate-A",1),("crate-B",2)]` the
registry-sources aggregator emits a single summary line — for `crate-A`, with
total 1 B — instead of the one-row-per-distinct-name result (two rows,
`crate-B` then `crate-A`) that the spec asserts and that the bare-repo
adjacency fold produces on the same logical input: the loop pushes a line on
*entering* a group rather than on leaving it, so the final group is dropped
and every emitted total is attributed to the previous group boundary.  The
repository's own test for this case (`stats_from_file_desc_two_diff`)
expects the two-row result and is commented out. -/
theorem states_two_names_drops_last_group :
    states_from_file_desc_list [⟨"crate-A", 1⟩, ⟨"crate-B", 2⟩]
        = ["00000000000000000001 crate-A src ckt: 1   src avg:       1 B    total: 1 B\n"]
      ∧ (states_from_file_desc_list [⟨"crate-A", 1⟩, ⟨"crate-B", 2⟩]).length = 1
      ∧ GitReposBare.chkout_list_to_string 3 (GitReposBare.stats_from_file_desc_list
            [⟨"crate-A", "crate-A", 1⟩, ⟨"crate-B", "crate-B", 2⟩])
        = "crate-B    src ckt: 1   src avg:       2 B   total: 2 B\ncrate-A    src ckt: 1   src avg:       1 B   total: 1 B\n" := by
  refine ⟨by decide, by decide, by decide⟩

end RegistrySources

theorem string_append_empty (s : String) : s ++ "" = s := by
  cases s with
  | mk data =>
    show String.mk (data ++ []) = String.mk data
    rw [List.append_nil]

namespace GitReposBare

/-- C7: on the single descriptor `("crateA", 1)` with limit 1 the bare-repo
pipeline renders exactly the row
`"crateA    src ckt: 1   src avg:       1 B   total: 1 B\n"` — name column
padded to the widest rendered name plus the fixed spacing constant, literal
tokens `src ckt:`, `src avg:` and `total:`, SI decimal sizes — and (second
conjunct) every rendered line of every report ends with a trailing newline,
the last included, since each record is rendered as a newline-terminated
line. -/
theorem chkout_single_descriptor_row :
    chkout_list_to_string 1 (stats_from_file_desc_list [⟨"crateA", "crateA", 1⟩])
        = "crateA    src ckt: 1   src avg:       1 B   total: 1 B\n"
      ∧ ∀ (w : Nat) (r : RepoInfo), ∃ s, repoLine w r = s ++ "\n" := by
  constructor
  · decide
  · intro w r
    exact ⟨padRight r.name w ++ " src ckt: " ++ padRight (natToDecStr r.counter) 3 ++ " "
      ++ padRight ("src avg: " ++ padLeftSp (fileSizeDecimal (r.total_size / r.counter)) 9) 20
      ++ " total: " ++ fileSizeDecimal r.total_size, rfl⟩

/-- C5: when the scanned root does not exist (`dir_exists` is false) both
per-category report functions return the empty string immediately, with an
empty collaborator-call trace: neither the Lazy Cache's `total_size` /
`bare_repo_folders` nor the registry directory listing is invoked, so the
cache collaborator's state is untouched. -/
theorem stats_missing_root_empty_no_calls
    (sizeOf : String → Nat) (path : String) (limit : Nat) (cache_total : Nat)
    (folders : List String) (file_descs : List RegistrySources.FileDesc) :
    git_repos_bare_stats false sizeOf path limit cache_total folders = ("", [])
      ∧ RegistrySources.registry_source_stats false path limit file_descs = ("", []) :=
  ⟨rfl, rfl⟩

/-- C6 counterexample: with an existing root whose folder listing is empty,
`git_repos_bare_stats` does *not* return the empty string — it still prints
the summary header line. -/
theorem git_repos_bare_stats_empty_root_has_header :
    (git_repos_bare_stats true (fun _ => 0) "/home/user/.cargo/git/db" 4 0 []).1
        = "\nSummary of: /home/user/.cargo/git/db (0 B total)\n"
      ∧ (git_repos_bare_stats true (fun _ => 0) "/home/user/.cargo/git/db" 4 0 []).1 ≠ "" := by
  constructor
  · decide
  · decide

/-- C6 (amended): for empty input the *formatter* returns the empty string
for every limit, and the aggregator emits no records; but the full report
functions return the empty string only when the root does not exist — when
the root exists and holds no entries they return exactly the one-line header
(with the memoized total for the bare-repo variant). -/
theorem empty_input_empty_report :
    (∀ limit : Nat, chkout_list_to_string limit [] = "")
      ∧ stats_from_file_desc_list [] = []
      ∧ (∀ (sizeOf : String → Nat) (path : String) (limit cache_total : Nat),
          (git_repos_bare_stats true sizeOf path limit cache_total []).1
            = "\nSummary of: " ++ path ++ " (" ++ fileSizeDecimal cache_total ++ " total)\n")
      ∧ (∀ (path : String) (limit : Nat),
          (RegistrySources.registry_source_stats true path limit []).1
            = "\nSummary of: " ++ path ++ "\n") := by
  refine ⟨fun limit => ?_, rfl, fun sizeOf path limit cache_total => ?_, fun path limit => ?_⟩
  · simp [chkout_list_to_string, sortStable, String.join]
  · show ("\nSummary of: " ++ path ++ " (" ++ fileSizeDecimal cache_total ++ " total)\n"
        ++ chkout_list_to_string limit (stats_from_file_desc_list [])) = _
    have h : chkout_list_to_string limit (stats_from_file_desc_list []) = "" := by
      simp [stats_from_file_desc_list, statsLoop, chkout_list_to_string, sortStable,
        String.join]
    rw [h, string_append_empty]
  · show ("\nSummary of: " ++ path ++ "\n"
        ++ String.join (((RegistrySources.states_from_file_desc_list []).take limit).map
          (fun data => String.mk (data.data.drop 21)))) = _
    have h : RegistrySources.states_from_file_desc_list [] = [] := rfl
    rw [h]
    simp [String.join, string_append_empty]

/-- C3 counterexample: two records with equal `total_size` (5) are rendered
in *reverse* of their input relative order — `chkout_list_to_string` sorts
ascending (stably) and then reverses, so the claim that ties keep the input
order fails at this input: the `"B"` row (second in the input) is printed
first. -/
theorem chkout_equal_totals_reverse_input_order :
    chkout_list_to_string 2 [⟨"A", 0, 1, 5⟩, ⟨"B", 0, 1, 5⟩]
        = "B    src ckt: 1   src avg:       5 B   total: 5 B\nA    src ckt: 1   src avg:       5 B   total: 5 B\n"
      ∧ chkout_list_to_string 2 [⟨"A", 0, 1, 5⟩, ⟨"B", 0, 1, 5⟩]
        ≠ "A    src ckt: 1   src avg:       5 B   total: 5 B\nB    src ckt: 1   src avg:       5 B   total: 5 B\n" := by
  constructor
  · decide
  · decide

theorem repoLe_trans : ∀ a b c : RepoInfo,
    repoLe a b = true → repoLe b c = true → repoLe a c = true := by
  intro a b c hab hbc
  simp only [repoLe, decide_eq_true_eq] at *
  omega

theorem repoLe_total : ∀ a b : RepoInfo, repoLe a b = false → repoLe b a = true := by
  intro a b h
  simp only [repoLe, decide_eq_false_iff_not, decide_eq_true_eq] at *
  omega

/-- C3 (amended): `chkout_list_to_string` renders exactly the first
`min(limit, length)` records of the list obtained by stably sorting the input
*ascending* by `total_size` and reversing; the rendered sequence is
descending by `total_size` (so nothing outside the top-`limit` by total size
is rendered), the sorted list is a permutation of the input, and — the
amendment — records with equal `total_size` keep their input relative order
in the *ascending* list, hence appear in the output in *reverse* of their
input relative order. -/
theorem chkout_renders_top_limit_desc (limit : Nat) (recs : List RepoInfo) :
    chkout_list_to_string limit recs
        = String.join (((sortStable repoLe recs).reverse.take limit).map
            (fun r => repoLine
              ((((sortStable repoLe recs).reverse.take limit).map
                (fun p => p.name.length)).foldr max 0 + TOP_CRATES_SPACING) r))
      ∧ ((sortStable repoLe recs).reverse.take limit).length = min limit recs.length
      ∧ ((sortStable repoLe recs).reverse.take limit).Pairwise
          (fun a b => b.total_size ≤ a.total_size)
      ∧ (∀ key : Nat,
          (sortStable repoLe recs).filter (fun r => decide (r.total_size = key))
            = recs.filter (fun r => decide (r.total_size = key)))
      ∧ (sortStable repoLe recs).Perm recs := by
  refine ⟨rfl, ?_, ?_, ?_, sortStable_perm repoLe recs⟩
  · rw [List.length_take, List.length_reverse,
      (sortStable_perm repoLe recs).length_eq]
  · have hp := sortStable_pairwise repoLe repoLe_trans repoLe_total recs
    have hp2 : (sortStable repoLe recs).reverse.Pairwise
        (fun a b => b.total_size ≤ a.total_size) := by
      rw [List.pairwise_reverse]
      exact hp.imp (fun h => by simpa [repoLe] using h)
    exact hp2.sublist (List.take_sublist limit _)
  · intro key
    exact sortStable_filter_key (fun r => r.total_size) key recs

end GitReposBare

theorem leChars_refl (l : List Char) : leChars l l = true := by
  induction l with
  | nil => rfl
  | cons a as ih => simp [leChars, lt_irrefl, ih]

theorem leChars_trans : ∀ a b c : List Char,
    leChars a b = true → leChars b c = true → leChars a c = true := by
  intro a
  induction a with
  | nil => intro b c h1 h2; rfl
  | cons x xs ih =>
    intro b c h1 h2
    cases b with
    | nil => simp [leChars] at h1
    | cons y ys =>
      cases c with
      | nil => simp [leChars] at h2
      | cons z zs =>
        simp only [leChars] at h1 h2 ⊢
        by_cases hxy : x < y
        · by_cases hyz : y < z
          · simp [lt_trans hxy hyz]
          · by_cases hzy : z < y
            · simp [hyz, hzy] at h2
            · have heq : y = z := le_antisymm (not_lt.mp hzy) (not_lt.mp hyz)
              subst heq
              simp [hxy]
        · by_cases hyx : y < x
          · simp [hxy, hyx] at h1
          · have heq : x = y := le_antisymm (not_lt.mp hyx) (not_lt.mp hxy)
            subst heq
            rw [if_neg (lt_irrefl x), if_neg (lt_irrefl x)] at h1
            by_cases hxz : x < z
            · simp [hxz]
            · by_cases hzx : z < x
              · simp [hxz, hzx] at h2
              · rw [if_neg hxz, if_neg hzx] at h2 ⊢
                exact ih ys zs h1 h2

theorem leChars_antisymm : ∀ a b : List Char,
    leChars a b = true → leChars b a = true → a = b := by
  intro a
  induction a with
  | nil =>
    intro b h1 h2
    cases b with
    | nil => rfl
    | cons y ys => simp [leChars] at h2
  | cons x xs ih =>
    intro b h1 h2
    cases b with
    | nil => simp [leChars] at h1
    | cons y ys =>
      simp only [leChars] at h1 h2
      by_cases hxy : x < y
      · simp [hxy, asymm hxy] at h2
      · by_cases hyx : y < x
        · simp [hxy, hyx] at h1
        · have heq : x = y := le_antisymm (not_lt.mp hyx) (not_lt.mp hxy)
          subst heq
          rw [if_neg (lt_irrefl x), if_neg (lt_irrefl x)] at h1
          rw [if_neg (lt_irrefl x), if_neg (lt_irrefl x)] at h2
          rw [ih ys h1 h2]

theorem strLe_refl (s : String) : strLe s s = true := leChars_refl s.data

theorem strLe_trans {a b c : String} (h1 : strLe a b = true) (h2 : strLe b c = true) :
    strLe a c = true := leChars_trans a.data b.data c.data h1 h2

theorem strLe_antisymm {a b : String} (h1 : strLe a b = true) (h2 : strLe b a = true) :
    a = b := by
  have h := leChars_antisymm a.data b.data h1 h2
  cases a
  cases b
  exact congrArg String.mk h

namespace GitReposBare

theorem statsLoop_eq_statsCont :
    ∀ (cs : List FileDesc) (p : FileDesc) (out : List RepoInfo) (counter total : Nat),
      statsLoop (some p) cs out (RepoInfo.new p.path counter total) counter total
        = out ++ statsCont p counter total cs := by
  intro cs
  induction cs with
  | nil => intro p out counter total; simp [statsLoop, statsCont]
  | cons c cs ih =>
    intro p out counter total
    simp only [statsLoop, statsCont]
    by_cases h : c.name = p.name
    · rw [if_pos h, if_pos h, ih]
    · rw [if_neg h, if_neg h, ih, List.append_assoc, List.singleton_append]

theorem stats_cons (d : FileDesc) (ds : List FileDesc) :
    stats_from_file_desc_list (d :: ds)
      = statsCont d ((0 + 1) % 2 ^ 32) ((0 + d.size) % 2 ^ 64) ds := by
  show statsLoop none (d :: ds) [] (RepoInfo.new "ERROR 1/err1" 0 0) 0 0 = _
  rw [show statsLoop none (d :: ds) [] (RepoInfo.new "ERROR 1/err1" 0 0) 0 0
      = statsLoop (some d) ds []
          (RepoInfo.new d.path ((0 + 1) % 2 ^ 32) ((0 + d.size) % 2 ^ 64))
          ((0 + 1) % 2 ^ 32) ((0 + d.size) % 2 ^ 64) from by simp [statsLoop]]
  rw [statsLoop_eq_statsCont, List.nil_append]

theorem aggRunsGo_fst_lb :
    ∀ (cs : List FileDesc) (name : String) (count sum : Nat),
      (∀ fd ∈ cs, strLe name fd.name = true) →
      cs.Pairwise (fun a b => strLe a.name b.name = true) →
      ∀ t ∈ aggRunsGo name count sum cs, strLe name t.1 = true := by
  intro cs
  induction cs with
  | nil =>
    intro name count sum hle hs t ht
    simp only [aggRunsGo, List.mem_singleton] at ht
    subst ht
    exact strLe_refl name
  | cons c cs ih =>
    intro name count sum hle hs t ht
    rcases List.pairwise_cons.mp hs with ⟨hc, hs2⟩
    simp only [aggRunsGo] at ht
    by_cases h : c.name = name
    · rw [if_pos h] at ht
      refine ih name (count + 1) (sum + c.size) ?_ hs2 t ht
      intro fd hfd
      have h2 := hc fd hfd
      rw [h] at h2
      exact h2
    · rw [if_neg h] at ht
      rcases List.mem_cons.mp ht with rfl | ht
      · exact strLe_refl name
      · exact strLe_trans (hle c (List.mem_cons_self c cs)) (ih c.name 1 c.size hc hs2 t ht)

theorem aggRunsGo_countP :
    ∀ (cs : List FileDesc) (name : String) (count sum : Nat),
      (∀ fd ∈ cs, strLe name fd.name = true) →
      cs.Pairwise (fun a b => strLe a.name b.name = true) →
      ∀ n : String,
        (aggRunsGo name count sum cs).countP (fun t => decide (t.1 = n))
          = if n = name ∨ n ∈ cs.map (fun fd => fd.name) then 1 else 0 := by
  intro cs
  induction cs with
  | nil =>
    intro name count sum hle hs n
    by_cases h : n = name
    · simp [aggRunsGo, List.countP_cons, h]
    · have h2 : ¬ name = n := fun heq => h heq.symm
      simp [aggRunsGo, List.countP_cons, h, h2]
  | cons c cs ih =>
    intro name count sum hle hs n
    rcases List.pairwise_cons.mp hs with ⟨hc, hs2⟩
    have hle2 : ∀ fd ∈ cs, strLe name fd.name = true :=
      fun fd hfd => hle fd (List.mem_cons_of_mem c hfd)
    simp only [aggRunsGo]
    by_cases h : c.name = name
    · rw [if_pos h, ih name (count + 1) (sum + c.size) hle2 hs2 n]
      have hiff : (n = name ∨ n ∈ cs.map (fun fd => fd.name))
          ↔ (n = name ∨ n ∈ (c :: cs).map (fun fd => fd.name)) := by
        simp only [List.map_cons, List.mem_cons, h]
        tauto
      rw [if_congr hiff rfl rfl]
    · rw [if_neg h, List.countP_cons, ih c.name 1 c.size hc hs2 n]
      have hlt : strLe name c.name = true := hle c (List.mem_cons_self c cs)
      have hne : name ≠ c.name := fun heq => h heq.symm
      have hnotin : ∀ fd ∈ cs, fd.name ≠ name := by
        intro fd hfd heq
        have h1 := hc fd hfd
        rw [heq] at h1
        exact hne (strLe_antisymm hlt h1)
      by_cases hn : n = name
      · subst hn
        have hc1 : ¬ (n = c.name ∨ n ∈ cs.map (fun fd => fd.name)) := by
          rintro (h1 | h1)
          · exact hne h1
          · obtain ⟨fd, hfd, heq⟩ := List.mem_map.mp h1
            exact hnotin fd hfd heq
        rw [if_neg hc1]
        simp [List.map_cons, List.mem_cons]
      · have hd : (decide ((((name, count, sum) : String × Nat × Nat)).1 = n)) = false := by
          simp
          exact fun heq => hn heq.symm
        rw [hd]
        simp only [List.map_cons, List.mem_cons, hn, false_or]
        simp
  
theorem aggRunsGo_values :
    ∀ (cs : List FileDesc) (name : String) (count sum : Nat),
      (∀ fd ∈ cs, strLe name fd.name = true) →
      cs.Pairwise (fun a b => strLe a.name b.name = true) →
      ∀ t ∈ aggRunsGo name count sum cs,
        (t.1 = name →
          t.2.1 = count + cs.countP (fun fd => decide (fd.name = name))
            ∧ t.2.2 = sum + ((cs.filter (fun fd => decide (fd.name = name))).map
                (fun fd => fd.size)).sum)
        ∧ (t.1 ≠ name →
          t.2.1 = cs.countP (fun fd => decide (fd.name = t.1))
            ∧ t.2.2 = ((cs.filter (fun fd => decide (fd.name = t.1))).map
                (fun fd => fd.size)).sum) := by
  intro cs
  induction cs with
  | nil =>
    intro name count sum hle hs t ht
    simp only [aggRunsGo, List.mem_singleton] at ht
    subst ht
    constructor
    · intro _
      simp
    · intro h1
      exact absurd rfl h1
  | cons c cs ih =>
    intro name count sum hle hs t ht
    rcases List.pairwise_cons.mp hs with ⟨hc, hs2⟩
    have hle2 : ∀ fd ∈ cs, strLe name fd.name = true :=
      fun fd hfd => hle fd (List.mem_cons_of_mem c hfd)
    simp only [aggRunsGo] at ht
    by_cases h : c.name = name
    · rw [if_pos h] at ht
      have hres := ih name (count + 1) (sum + c.size) hle2 hs2 t ht
      constructor
      · intro h1
        rcases hres.1 h1 with ⟨ha, hb⟩
        constructor
        · rw [ha, List.countP_cons]
          simp [h]
          omega
        · rw [hb, List.filter_cons_of_pos (by simp [h])]
          simp [List.map_cons, List.sum_cons]
          omega
      · intro h1
        rcases hres.2 h1 with ⟨ha, hb⟩
        have hcne : ¬ (c.name = t.1) := by
          rw [h]
          exact fun heq => h1 heq.symm
        constructor
        · rw [ha, List.countP_cons]
          simp [hcne]
        · rw [hb, List.filter_cons_of_neg (by simp [hcne])]
    · rw [if_neg h] at ht
      have hlt : strLe name c.name = true := hle c (List.mem_cons_self c cs)
      have hne : name ≠ c.name := fun heq => h heq.symm
      have hnotin : ∀ fd ∈ cs, fd.name ≠ name := by
        intro fd hfd heq
        have h1 := hc fd hfd
        rw [heq] at h1
        exact hne (strLe_antisymm hlt h1)
      rcases List.mem_cons.mp ht with rfl | ht
      · constructor
        · intro _
          have hcount : (c :: cs).countP (fun fd => decide (fd.name = name)) = 0 := by
            rw [List.countP_eq_zero]
            intro a ha
            rcases List.mem_cons.mp ha with rfl | ha
            · simp [h]
            · simp [hnotin a ha]
          have hfilter : (c :: cs).filter (fun fd => decide (fd.name = name)) = [] := by
            rw [List.filter_eq_nil_iff]
            intro a ha
            rcases List.mem_cons.mp ha with rfl | ha
            · simp [h]
            · simp [hnotin a ha]
          rw [hcount, hfilter]
          simp
        · intro h1
          exact absurd rfl h1
      · have hres := ih c.name 1 c.size hc hs2 t ht
        have hlb : strLe c.name t.1 = true := aggRunsGo_fst_lb cs c.name 1 c.size hc hs2 t ht
        have htne : t.1 ≠ name := by
          intro heq
          rw [heq] at hlb
          exact hne (strLe_antisymm hlt hlb)
        constructor
        · intro h1
          exact absurd h1 htne
        · intro _
          by_cases h2 : t.1 = c.name
          · rcases hres.1 h2 with ⟨ha, hb⟩
            constructor
            · rw [ha, h2, List.countP_cons]
              simp
              omega
            · rw [hb, h2, List.filter_cons_of_pos (by simp)]
              simp [List.map_cons, List.sum_cons]
          · rcases hres.2 h2 with ⟨ha, hb⟩
            have hcne : ¬ (c.name = t.1) := fun heq => h2 heq.symm
            constructor
            · rw [ha, List.countP_cons]
              simp [hcne]
            · rw [hb, List.filter_cons_of_neg (by simp [hcne])]

theorem statsCont_eq_agg :
    ∀ (cs : List FileDesc) (p : FileDesc) (counter total : Nat),
      fileName p.path = p.name →
      (∀ fd ∈ cs, fileName fd.path = fd.name) →
      1 ≤ counter →
      counter + cs.length < 2 ^ 32 →
      total + (cs.map (fun fd => fd.size)).sum < 2 ^ 64 →
      statsCont p counter total cs
        = (aggRunsGo p.name counter total cs).map
            (fun t => (⟨t.1, 0, t.2.1, t.2.2⟩ : RepoInfo)) := by
  intro cs
  induction cs with
  | nil =>
    intro p counter total hp _ _ _ _
    simp [statsCont, aggRunsGo, RepoInfo.new, hp]
  | cons c cs ih =>
    intro p counter total hp hall h1 hcb htb
    have hcname : fileName c.path = c.name := hall c (List.mem_cons_self c cs)
    have hall2 : ∀ fd ∈ cs, fileName fd.path = fd.name :=
      fun fd hfd => hall fd (List.mem_cons_of_mem c hfd)
    simp only [List.length_cons] at hcb
    simp only [List.map_cons, List.sum_cons] at htb
    simp only [statsCont, aggRunsGo]
    by_cases h : c.name = p.name
    · rw [if_pos h, if_pos h]
      have e1 : (counter + 1) % 2 ^ 32 = counter + 1 := Nat.mod_eq_of_lt (by omega)
      have e2 : (total + c.size) % 2 ^ 64 = total + c.size := Nat.mod_eq_of_lt (by omega)
      rw [e1, e2, ih c (counter + 1) (total + c.size) hcname hall2 (by omega) (by omega)
        (by omega), ← h]
    · rw [if_neg h, if_neg h]
      have e1 : (0 + 1) % 2 ^ 32 = 1 := Nat.mod_eq_of_lt (by norm_num)
      have e2 : (0 + c.size) % 2 ^ 64 = c.size := by
        rw [Nat.zero_add]
        exact Nat.mod_eq_of_lt (by omega)
      rw [e1, e2, List.map_cons,
        ih c 1 c.size hcname hall2 (le_refl 1) (by omega) (by omega)]
      congr 1
      simp [RepoInfo.new, hp]

/-- C1: on any name-sorted descriptor sequence (equal names contiguous) whose
descriptors are consistent (the record name derived from the path equals the
descriptor name, as holds for every descriptor the program builds) and whose
length and total size fit in `u32`/`u64`, the adjacency-fold aggregator emits
exactly one summary record per distinct name — `countP` over the output is 1
for every name present in the input and 0 otherwise — whose counter is the
number of descriptors bearing that name and whose `total_size` is the sum of
their sizes; the empty sequence yields no records, and a singleton sequence
yields exactly one record with counter 1. -/
theorem stats_from_file_desc_list_groups (descs : List FileDesc)
    (hsorted : descs.Pairwise (fun a b => strLe a.name b.name = true))
    (hname : ∀ fd ∈ descs, fileName fd.path = fd.name)
    (hlen : descs.length < 2 ^ 32)
    (hsize : (descs.map (fun fd => fd.size)).sum < 2 ^ 64) :
    (∀ n : String,
        (stats_from_file_desc_list descs).countP (fun r => decide (r.name = n))
          = if descs.countP (fun fd => decide (fd.name = n)) = 0 then 0 else 1)
      ∧ (∀ r ∈ stats_from_file_desc_list descs,
          r.counter = descs.countP (fun fd => decide (fd.name = r.name))
            ∧ r.total_size = ((descs.filter (fun fd => decide (fd.name = r.name))).map
                (fun fd => fd.size)).sum)
      ∧ stats_from_file_desc_list ([] : List FileDesc) = []
      ∧ (∀ fd : FileDesc, descs = [fd] →
          stats_from_file_desc_list descs = [⟨fd.name, 0, 1, fd.size⟩]) := by
  cases descs with
  | nil =>
    refine ⟨?_, ?_, rfl, ?_⟩
    · intro n
      simp [stats_from_file_desc_list, statsLoop, List.countP_nil]
    · intro r hr
      simp [stats_from_file_desc_list, statsLoop] at hr
    · intro fd h
      exact absurd h (by simp)
  | cons d ds =>
    have hd : fileName d.path = d.name := hname d (List.mem_cons_self d ds)
    have hall : ∀ fd ∈ ds, fileName fd.path = fd.name :=
      fun fd hfd => hname fd (List.mem_cons_of_mem d hfd)
    rcases List.pairwise_cons.mp hsorted with ⟨hc, hs2⟩
    simp only [List.length_cons] at hlen
    simp only [List.map_cons, List.sum_cons] at hsize
    have e1 : (0 + 1) % 2 ^ 32 = 1 := Nat.mod_eq_of_lt (by norm_num)
    have e2 : (0 + d.size) % 2 ^ 64 = d.size := by
      rw [Nat.zero_add]
      exact Nat.mod_eq_of_lt (by omega)
    have hmain : stats_from_file_desc_list (d :: ds)
        = (aggRunsGo d.name 1 d.size ds).map
            (fun t => (⟨t.1, 0, t.2.1, t.2.2⟩ : RepoInfo)) := by
      rw [stats_cons, e1, e2,
        statsCont_eq_agg ds d 1 d.size hd hall (le_refl 1) (by omega) (by omega)]
    refine ⟨?_, ?_, rfl, ?_⟩
    · intro n
      rw [hmain, List.countP_map]
      have hcp : ((fun r : RepoInfo => decide (r.name = n))
            ∘ (fun t : String × Nat × Nat => (⟨t.1, 0, t.2.1, t.2.2⟩ : RepoInfo)))
          = fun t : String × Nat × Nat => decide (t.1 = n) := rfl
      rw [hcp, aggRunsGo_countP ds d.name 1 d.size hc hs2 n]
      by_cases hmem : n = d.name ∨ n ∈ ds.map (fun fd => fd.name)
      · rw [if_pos hmem]
        have hpos : (d :: ds).countP (fun fd => decide (fd.name = n)) ≠ 0 := by
          have hex : ∃ a ∈ d :: ds, (fun fd => decide (fd.name = n)) a = true := by
            rcases hmem with h1 | h1
            · exact ⟨d, List.mem_cons_self d ds, by simp [h1.symm]⟩
            · obtain ⟨fd, hfd, heq⟩ := List.mem_map.mp h1
              exact ⟨fd, List.mem_cons_of_mem d hfd, by simp [heq]⟩
          have hp := List.countP_pos_iff.mpr hex
          omega
        rw [if_neg hpos]
      · rw [if_neg hmem]
        have hz : (d :: ds).countP (fun fd => decide (fd.name = n)) = 0 := by
          rw [List.countP_eq_zero]
          intro a ha
          rcases List.mem_cons.mp ha with rfl | ha
          · simp only [decide_eq_true_eq]
            intro heq
            exact hmem (Or.inl heq.symm)
          · simp only [decide_eq_true_eq]
            intro heq
            exact hmem (Or.inr (List.mem_map.mpr ⟨a, ha, heq⟩))
        rw [if_pos hz]
    · intro r hr
      rw [hmain] at hr
      obtain ⟨t, ht, rfl⟩ := List.mem_map.mp hr
      have hv := aggRunsGo_values ds d.name 1 d.size hc hs2 t ht
      by_cases h2 : t.1 = d.name
      · rcases hv.1 h2 with ⟨ha, hb⟩
        constructor
        · show t.2.1 = (d :: ds).countP (fun fd => decide (fd.name = t.1))
          rw [ha, h2, List.countP_cons]
          simp
          omega
        · show t.2.2
            = (((d :: ds).filter (fun fd => decide (fd.name = t.1))).map
                (fun fd => fd.size)).sum
          rw [hb, h2, List.filter_cons_of_pos (by simp)]
          simp [List.map_cons, List.sum_cons]
      · rcases hv.2 h2 with ⟨ha, hb⟩
        have hdne : ¬ (d.name = t.1) := fun heq => h2 heq.symm
        constructor
        · show t.2.1 = (d :: ds).countP (fun fd => decide (fd.name = t.1))
          rw [ha, List.countP_cons]
          simp [hdne]
        · show t.2.2
            = (((d :: ds).filter (fun fd => decide (fd.name = t.1))).map
                (fun fd => fd.size)).sum
          rw [hb, List.filter_cons_of_neg (by simp [hdne])]
    · intro fd heq
      injection heq with h1 h2
      subst h1
      subst h2
      rw [hmain]
      simp [aggRunsGo]

theorem stats_from_file_desc_list_groups_witness :
    (stats_from_file_desc_list
        [⟨"crate-A", "crate-A", 3⟩, ⟨"crate-A", "crate-A", 3⟩]).countP
        (fun r => decide (r.name = "crate-A")) = 1
      ∧ stats_from_file_desc_list
          [⟨"crate-A", "crate-A", 3⟩, ⟨"crate-A", "crate-A", 3⟩]
        = [⟨"crate-A", 0, 2, 6⟩] := by
  have h := stats_from_file_desc_list_groups
    [⟨"crate-A", "crate-A", 3⟩, ⟨"crate-A", "crate-A", 3⟩]
    (by decide) (by decide) (by decide) (by decide)
  constructor
  · rw [h.1 "crate-A"]
    decide
  · decide

theorem statsCont_counter_pos :
    ∀ (cs : List FileDesc) (p : FileDesc) (counter total : Nat),
      1 ≤ counter → counter + cs.length < 2 ^ 32 →
      ∀ r ∈ statsCont p counter total cs, 1 ≤ r.counter := by
  intro cs
  induction cs with
  | nil =>
    intro p counter total h1 _ r hr
    simp only [statsCont, List.mem_singleton] at hr
    subst hr
    exact h1
  | cons c cs ih =>
    intro p counter total h1 hcb r hr
    simp only [List.length_cons] at hcb
    simp only [statsCont] at hr
    by_cases h : c.name = p.name
    · rw [if_pos h] at hr
      have e1 : (counter + 1) % 2 ^ 32 = counter + 1 := Nat.mod_eq_of_lt (by omega)
      rw [e1] at hr
      exact ih c (counter + 1) ((total + c.size) % 2 ^ 64) (by omega) (by omega) r hr
    · rw [if_neg h] at hr
      rcases List.mem_cons.mp hr with rfl | hr
      · exact h1
      · have e1 : (0 + 1) % 2 ^ 32 = 1 := Nat.mod_eq_of_lt (by norm_num)
        rw [e1] at hr
        exact ih c 1 ((0 + c.size) % 2 ^ 64) (le_refl 1) (by omega) r hr

theorem regGo_counter_pos (w : Nat) :
    ∀ (descs : List RegistrySources.FileDesc) (prev : String) (counter total : Nat),
      1 ≤ counter → counter + descs.length < 2 ^ 32 →
      ∀ line ∈ RegistrySources.regGo w prev counter total descs,
        ∃ t n c, 1 ≤ c ∧ line = RegistrySources.regLine w t n c := by
  intro descs
  induction descs with
  | nil =>
    intro prev counter total _ _ line h
    simp [RegistrySources.regGo] at h
  | cons pkg rest ih =>
    intro prev counter total h1 hcb line h
    simp only [List.length_cons] at hcb
    simp only [RegistrySources.regGo] at h
    split at h
    · rcases List.mem_cons.mp h with rfl | h
      · exact ⟨(total + pkg.size) % 2 ^ 64, pkg.name, counter, h1, rfl⟩
      · exact ih pkg.name 1 (pkg.size % 2 ^ 64) (le_refl 1) (by omega) line h
    · have e1 : (counter + 1) % 2 ^ 32 = counter + 1 := Nat.mod_eq_of_lt (by omega)
      rw [e1] at h
      exact ih pkg.name (counter + 1) ((total + pkg.size) % 2 ^ 64) (by omega) (by omega)
        line h

/-- C8: every record emitted by the bare-repo adjacency-fold aggregator has
`counter ≥ 1` (first conjunct, with the descriptor count below the `u32`
capacity so the counter never wraps to zero), and every line emitted by the
registry-sources aggregator was rendered with a divisor `counter ≥ 1` (second
conjunct); hence the `total_size / counter` average computed by the
formatters from aggregator output is never a division by zero. -/
theorem aggregator_counters_ge_one (descsB : List FileDesc)
    (descsR : List RegistrySources.FileDesc)
    (hB : descsB.length < 2 ^ 32) (hR : descsR.length + 1 < 2 ^ 32) :
    (∀ r ∈ stats_from_file_desc_list descsB, 1 ≤ r.counter)
      ∧ (∀ line ∈ RegistrySources.states_from_file_desc_list descsR,
          ∃ t n c, 1 ≤ c ∧ line = RegistrySources.regLine
            ((descsR.map (fun p => p.name.length)).foldr max 0) t n c) := by
  constructor
  · intro r hr
    cases descsB with
    | nil => simp [stats_from_file_desc_list, statsLoop] at hr
    | cons d ds =>
      rw [stats_cons] at hr
      have e1 : (0 + 1) % 2 ^ 32 = 1 := Nat.mod_eq_of_lt (by norm_num)
      rw [e1] at hr
      simp only [List.length_cons] at hB
      exact statsCont_counter_pos ds d 1 ((0 + d.size) % 2 ^ 64) (le_refl 1) (by omega) r hr
  · intro line hline
    have hmem : line ∈ RegistrySources.regGo
        ((descsR.map (fun p => p.name.length)).foldr max 0) "" 1 0 descsR := by
      have h1 := List.mem_reverse.mp hline
      exact (sortStable_perm strLe _).mem_iff.mp h1
    exact regGo_counter_pos _ descsR "" 1 0 (le_refl 1) (by omega) line hmem

theorem aggregator_counters_ge_one_witness :
    1 ≤ (⟨"crateA", 0, 1, 1⟩ : RepoInfo).counter := by
  have h := (aggregator_counters_ge_one [⟨"crateA", "crateA", 1⟩] []
    (by decide) (by decide)).1
  exact h ⟨"crateA", 0, 1, 1⟩ (by decide)

end GitReposBare
